import Mathlib

/-!
Verification development for the `mol2grep` tool: a shallow embedding of the
record model (`src/mol2.rs`), the record parser (`Mol2Reader::get_mol2`), the
query loader (`src/query.rs`) and the grep/split pipelines (`src/mol2utils.rs`),
together with theorems settling the specified behaviour.

Modelling conventions:
* A decompressed byte stream is modelled as a `List String` of physical lines,
  each line carrying its trailing newline exactly as `BufReader::read_line`
  yields it.
* `f64` energies are modelled as exact rationals `ℚ`; `f64::from_str` is
  modelled on finite decimal literals (the non-finite forms `inf`/`nan`, which
  have no rational counterpart, are unexercised by the repository's inputs).
* Functions that can `panic!` or `unwrap` a failure in the Rust source return
  an explicit `panicked`-style value.
* The parser loop, which Rust runs as an unbounded `loop`, is given the fuel
  argument `lines.length`: every iteration consumes at least one source line,
  so this fuel is always sufficient (the fuel-exhaustion branch is unreachable
  from the top-level entry point, as the invariant `lines.length ≤ fuel` is
  maintained by every recursive call).
-/

/-- Drop leading and trailing whitespace characters; models Rust `str::trim`
on the ASCII inputs this tool processes. -/
def trimChars (cs : List Char) : List Char :=
  ((cs.dropWhile Char.isWhitespace).reverse.dropWhile Char.isWhitespace).reverse

/-- String-level trim built on `trimChars`. -/
def strTrim (s : String) : String :=
  String.mk (trimChars s.data)

/-- Does the character list `cs` start with the literal `pat`?  Models the
anchored regexes `^@<TRIPOS>` and `^@<TRIPOS>MOLECULE` applied via `is_match`. -/
def listStartsWith : List Char → List Char → Bool
  | _, [] => true
  | [], _ :: _ => false
  | c :: cs, p :: ps => c = p && listStartsWith cs ps

/-- Fuelled whitespace splitter: tokens are maximal runs of non-whitespace
characters; models Rust `str::split_whitespace` (which never yields empty
tokens).  The fuel is always instantiated with the length of the list, which
suffices because every step consumes at least one character. -/
def splitWSF : Nat → List Char → List (List Char)
  | 0, _ => []
  | _ + 1, [] => []
  | f + 1, c :: cs =>
    if c.isWhitespace then splitWSF f cs
    else (c :: cs.takeWhile (fun x => !x.isWhitespace)) ::
      splitWSF f (cs.dropWhile (fun x => !x.isWhitespace))

/-- Split a line into whitespace-separated items; models
`self.line.trim().split_whitespace().collect::<Vec<&str>>()` (the leading
`trim` is absorbed by `split_whitespace`, which already ignores boundary
whitespace). -/
def splitItems (l : String) : List String :=
  (splitWSF l.data.length l.data).map String.mk

/-- Value of a digit run, most significant first. -/
def digitsToNat (ds : List Char) : Nat :=
  ds.foldl (fun a c => a * 10 + (c.toNat - 48)) 0

/-- Models `u8::from_str` applied to a digit run: nonempty, all digits,
value at most 255 (larger values overflow and make the source `unwrap` panic). -/
def parseU8digits (ds : List Char) : Option Nat :=
  if ds ≠ [] ∧ ds.all Char.isDigit then
    if digitsToNat ds ≤ 255 then some (digitsToNat ds) else none
  else none

/-- Models `str::parse::<u8>()`: optional leading `+`, then digits. -/
def parseU8 (s : String) : Option Nat :=
  match s.data with
  | '+' :: ds => parseU8digits ds
  | ds => parseU8digits ds

/-- Exponent tail of a decimal float literal: empty, or `e`/`E` followed by an
optionally signed nonempty digit run. -/
def parseExpTail : List Char → Option Int
  | [] => some 0
  | c :: rest =>
    if c = 'e' ∨ c = 'E' then
      match rest with
      | '+' :: ds =>
        if ds ≠ [] ∧ ds.all Char.isDigit then some (digitsToNat ds) else none
      | '-' :: ds =>
        if ds ≠ [] ∧ ds.all Char.isDigit then some (-(digitsToNat ds : Int)) else none
      | ds =>
        if ds ≠ [] ∧ ds.all Char.isDigit then some (digitsToNat ds) else none
    else none

/-- Unsigned decimal float body: `digits [. digits] [exp]` with at least one
mantissa digit, valued exactly as a rational. -/
def parseF64core (cs : List Char) : Option ℚ :=
  let intPart := cs.takeWhile Char.isDigit
  let rest := cs.dropWhile Char.isDigit
  match rest with
  | '.' :: rest2 =>
    let frac := rest2.takeWhile Char.isDigit
    let rest3 := rest2.dropWhile Char.isDigit
    if intPart = [] ∧ frac = [] then none
    else
      (parseExpTail rest3).map (fun e =>
        ((digitsToNat intPart : ℚ) + (digitsToNat frac : ℚ) / (10 : ℚ) ^ frac.length)
          * (10 : ℚ) ^ e)
  | _ =>
    if intPart = [] then none
    else (parseExpTail rest).map (fun e => (digitsToNat intPart : ℚ) * (10 : ℚ) ^ e)

/-- Models `str::parse::<f64>()` on finite decimal literals, valued exactly
(`ℚ` standing in for `f64`): optional sign then a decimal body. -/
def parseF64 (s : String) : Option ℚ :=
  match s.data with
  | '-' :: cs => (parseF64core cs).map Neg.neg
  | '+' :: cs => parseF64core cs
  | cs => parseF64core cs

/-- Drop the exact literal `pat` from the head of `cs`, if present. -/
def dropLit : List Char → List Char → Option (List Char)
  | [], cs => some cs
  | _ :: _, [] => none
  | p :: ps, c :: cs => if c = p then dropLit ps cs else none

/-- Match the regex `#+ +LIT +` (one or more hashes, one or more spaces, the
literal `lit`, one or more spaces) at the head of `cs`, returning the suffix
after the greedy match.  The patterns `#+ +Name: +` and `#+ +Total Energy: +`
of `Mol2Reader` have this shape; because the literal begins with a non-space,
non-hash character, greedy maximal-munch matching is exact for them. -/
def matchHeaderAt (lit : List Char) : List Char → Option (List Char)
  | [] => none
  | c :: cs =>
    if c = '#' then
      match cs.dropWhile (fun x => x = '#') with
      | ' ' :: cs2 =>
        match dropLit lit (cs2.dropWhile (fun x => x = ' ')) with
        | some cs4 =>
          match cs4 with
          | ' ' :: cs5 => some (cs5.dropWhile (fun x => x = ' '))
          | _ => none
        | none => none
      | _ => none
    else none

/-- Does the unanchored regex `#+ +LIT +` match anywhere in the line?
Models `Regex::is_match`. -/
def hasHeaderMatch (lit : List Char) : List Char → Bool
  | [] => false
  | c :: cs => (matchHeaderAt lit (c :: cs)).isSome || hasHeaderMatch lit cs

/-- Fuelled leftmost, non-overlapping removal of all matches of `#+ +LIT +`;
models `Regex::replace_all(line, "")`.  Fuel `cs.length` is sufficient since
every step consumes at least one character. -/
def replaceAllHeaderF (lit : List Char) : Nat → List Char → List Char
  | 0, cs => cs
  | _ + 1, [] => []
  | f + 1, c :: cs =>
    match matchHeaderAt lit (c :: cs) with
    | some rest => replaceAllHeaderF lit f rest
    | none => c :: replaceAllHeaderF lit f cs

/-- The literal inside the name-header regex `#+ +Name: +`. -/
def nameLit : String := "Name:"

/-- The literal inside the energy-header regex `#+ +Total Energy: +`. -/
def energyLit : String := "Total Energy:"

/-- Models `regex_name.is_match(&self.line)`. -/
def isNameLine (l : String) : Bool := hasHeaderMatch nameLit.data l.data

/-- Models `regex_energy.is_match(&self.line)`. -/
def isEnergyLine (l : String) : Bool := hasHeaderMatch energyLit.data l.data

/-- Models `regex_tripos.is_match(&self.line)` for `^@<TRIPOS>`. -/
def isTriposLine (l : String) : Bool := listStartsWith l.data "@<TRIPOS>".data

/-- Models `regex_tripos_molecule.is_match(&self.line)` for `^@<TRIPOS>MOLECULE`. -/
def isTriposMoleculeLine (l : String) : Bool :=
  listStartsWith l.data "@<TRIPOS>MOLECULE".data

/-- Models `regex.replace_all(&self.line, "").trim().to_string()`: strip every
header match from the line, then trim. -/
def extractAfter (lit : String) (l : String) : String :=
  String.mk (trimChars (replaceAllHeaderF lit.data l.data.length l.data))

/-- Concatenation of a list of source lines into one byte sequence. -/
def concatLines (ls : List String) : String := ls.foldr (· ++ ·) ""

/-- The record type of `src/mol2.rs` (`struct Mol2`): a name, an energy and
the verbatim concatenation of the record's source lines. -/
structure Mol2 where
  name : String
  energy : ℚ
  lines : String
deriving Repr, DecidableEq

/-- Models `Mol2::new()`: empty name, sentinel energy `100.0`, empty payload. -/
def Mol2.new : Mol2 :=
  { name := "", energy := 100, lines := "" }

/-- Models `Mol2::add_line`: `self.lines += line`. -/
def Mol2.addLine (m : Mol2) (l : String) : Mol2 :=
  { m with lines := m.lines ++ l }

/-- Models the `PartialEq` impl of `Mol2`: equality is name equality only. -/
def mol2BEq (a b : Mol2) : Bool := a.name == b.name

/-- Models the `Hash` impl of `Mol2`: for any hasher `hs` on strings, the hash
of a record is the hash of its name. -/
def mol2Hash (hs : String → Nat) (m : Mol2) : Nat := hs m.name

/-- Result of one `get_mol2` call: `eof` models returning `None` because the
stream ran out, `panicked` models a Rust panic (out-of-bounds index or a failed
`unwrap`), and `ok m rest` models `Some(m)` with `rest` the unconsumed lines of
the underlying reader. -/
inductive ParseResult where
  | eof : ParseResult
  | panicked : ParseResult
  | ok : Mol2 → List String → ParseResult
deriving Repr, DecidableEq

/-- Models `line.trim().split_whitespace().map(|x| x.parse::<u8>().unwrap()).collect()`;
`none` models a panicking `unwrap`. -/
def parseCounts (l : String) : Option (List Nat) :=
  (splitItems l).mapM parseU8

/-- Outcome of processing the line just read at the top of the `get_mol2` loop
body, before the loop-bottom yield check: either an early `return` out of the
loop (`ret`), or continuation with the updated molecule, section index, counts
vector, current line buffer (empty when the TRIPOS branch cleared it) and
remaining input lines. -/
inductive StepOut where
  | ret : ParseResult → StepOut
  | cont : Mol2 → Nat → List Nat → String → List String → StepOut
deriving Repr, DecidableEq

/-- One iteration of the branch cascade in `Mol2Reader::get_mol2`
(src/mol2.rs lines 151-204), applied to the freshly read `line`:
name-header, energy-header, TRIPOS MOLECULE marker (prefetch two lines and
parse the counts vector), other TRIPOS marker (consume `counts[state]` lines
and advance the section index), or plain line. -/
def processLine (mol : Mol2) (s : Nat) (cv : List Nat) (line : String)
    (rest : List String) : StepOut :=
  if isNameLine line then
    StepOut.cont { mol with name := extractAfter nameLit line } s cv line rest
  else if isEnergyLine line then
    match parseF64 (extractAfter energyLit line) with
    | none => StepOut.ret ParseResult.panicked
    | some e => StepOut.cont { mol with energy := e } s cv line rest
  else if isTriposLine line then
    if isTriposMoleculeLine line then
      match rest with
      | l1 :: l2 :: rest2 =>
        match parseCounts l2 with
        | none => StepOut.ret ParseResult.panicked
        | some cs =>
          StepOut.cont (((mol.addLine line).addLine l1).addLine l2) s cs "" rest2
      | _ => StepOut.ret ParseResult.eof
    else
      match cv[s]? with
      | none => StepOut.ret ParseResult.panicked
      | some n =>
        if n ≤ rest.length then
          StepOut.cont (List.foldl Mol2.addLine (mol.addLine line) (rest.take n))
            (s + 1) cv "" (rest.drop n)
        else StepOut.ret ParseResult.eof
  else
    StepOut.cont mol s cv line rest

/-- The `loop` of `Mol2Reader::get_mol2` (src/mol2.rs lines 145-211): read a
line (end of stream returns `None`), process it, then run the loop-bottom
check `(tripos_state > 0) && (tripos_counts[tripos_state] == 0)` — indexing
past the counts vector panics, a zero entry breaks and yields the record, and
otherwise the line buffer is appended to the payload and the loop repeats. -/
def getMol2Loop : Nat → Mol2 → Nat → List Nat → List String → ParseResult
  | _, _, _, _, [] => ParseResult.eof
  | 0, _, _, _, _ :: _ => ParseResult.eof
  | f + 1, mol, s, cv, line :: rest =>
    match processLine mol s cv line rest with
    | StepOut.ret r => r
    | StepOut.cont mol' s' cv' buf rest' =>
      if 0 < s' then
        match cv'[s']? with
        | none => ParseResult.panicked
        | some k =>
          if k = 0 then ParseResult.ok mol' rest'
          else getMol2Loop f (mol'.addLine buf) s' cv' rest'
      else getMol2Loop f (mol'.addLine buf) s' cv' rest'

/-- Models `Mol2Reader::get_mol2` on the remaining lines of the stream: a
fresh molecule, section index `0`, empty counts vector.  The fuel
`lines.length` is sufficient because every loop iteration consumes at least
one line. -/
def getMol2 (lines : List String) : ParseResult :=
  getMol2Loop lines.length Mol2.new 0 [] lines

/-- The two query-table shapes of `src/query.rs` (`enum QueryFormat`): a map
from names to target energies, or a bare name set.  `HashMap<Mol2, f64>` and
`HashSet<Mol2>` key on the record's name only (its `Hash`/`PartialEq` impls
use just the name), so the tables are modelled keyed by name. -/
inductive QueryFormat where
  | withScore : List (String × ℚ) → QueryFormat
  | withoutScore : List String → QueryFormat
deriving Repr, DecidableEq

/-- Result of `QueryReader::load_queries`: the loaded table, or a panic
(`panic!` on a bad column count, an out-of-bounds `items[1]`, or a failed
energy parse `expect`). -/
inductive LoadResult where
  | ok : QueryFormat → LoadResult
  | panicked : LoadResult
deriving Repr, DecidableEq

/-- Set insertion keyed on the name (models `HashSet<Mol2>::insert`). -/
def setInsert (tab : List String) (n : String) : List String :=
  if tab.contains n then tab else tab ++ [n]

/-- Models `read_zinc_list`: every line of the file (the already-read first
line, then each further line until end of stream) is trimmed whole and
inserted as a name. -/
def readZincList (first : String) (rest : List String) : List String :=
  (first :: rest).foldl (fun tab l => setInsert tab (strTrim l)) []

/-- Map insertion with overwrite (models `HashMap<Mol2, f64>::insert`, where
a duplicate key's previous value is replaced). -/
def mapInsert (tab : List (String × ℚ)) (k : String) (v : ℚ) : List (String × ℚ) :=
  (tab.filter (fun p => !(p.1 == k))) ++ [(k, v)]

/-- Models `read_zinc_score_table`: for every line, split into items, index
`items[0]` and `items[1]` (fewer than two items panics on the indexing), parse
the energy column (`expect` panics on failure, modelled as `none`) and insert. -/
def readZincScoreTable (first : String) (rest : List String) :
    Option (List (String × ℚ)) :=
  (first :: rest).foldlM (fun tab l =>
    match splitItems l with
    | a :: b :: _ =>
      match parseF64 b with
      | some e => some (mapInsert tab a e)
      | none => none
    | _ => none) []

/-- Models `QueryReader::load_queries` (src/query.rs lines 107-117): read the
first line (an empty stream reads as the empty line), split it on whitespace,
and dispatch on its item count: 1 column loads a name set, 2 columns loads a
name-to-energy map, anything else panics. -/
def loadQueries (lines : List String) : LoadResult :=
  match lines with
  | [] => LoadResult.panicked
  | first :: rest =>
    match (splitItems first).length with
    | 1 => LoadResult.ok (QueryFormat.withoutScore (readZincList first rest))
    | 2 =>
      match readZincScoreTable first rest with
      | some t => LoadResult.ok (QueryFormat.withScore t)
      | none => LoadResult.panicked
    | _ => LoadResult.panicked

/-- The composed per-record predicate of `grep_with_map` (src/mol2utils.rs
lines 47-75): the first filter keeps records whose name is a key of the table,
the second keeps those with `energy − table[name] ≤ tol`. -/
def matchesMap (table : List (String × ℚ)) (tol : ℚ) (m : Mol2) : Bool :=
  match table.lookup m.name with
  | none => false
  | some target => decide (m.energy - target ≤ tol)

/-- The bytes the `grep` sink writes for one accepted record:
`mol.get_lines().as_bytes()` — the record's verbatim payload. -/
def filterWriteBytes (m : Mol2) : String := m.lines

/-- The shard-indexed writes the `split` drain loop performs: the `k`-th
drained record (counting from `n`) goes to shard `(n+k) % numFiles` with its
verbatim payload. -/
def shardWrites (numFiles : Nat) : Nat → List Mol2 → List (Nat × String)
  | _, [] => []
  | n, m :: rest => (n % numFiles, m.lines) :: shardWrites numFiles (n + 1) rest

/-- The drain loop of `split` (src/mol2utils.rs lines 206-216): for every
record drained from the channel compute `file_id = num_molecules % num_files`
(a remainder by zero panics, modelled as `none`), write the payload to that
shard, bump that shard's counter (an out-of-bounds counter access would also
panic) and increment the running count. -/
def splitLoop (numFiles : Nat) : List Nat → List (Nat × String) → Nat →
    List Mol2 → Option (List Nat × List (Nat × String))
  | counts, writes, _, [] => some (counts, writes)
  | counts, writes, n, m :: rest =>
    if numFiles = 0 then none
    else
      match counts[n % numFiles]? with
      | none => none
      | some k =>
        splitLoop numFiles (counts.set (n % numFiles) (k + 1))
          (writes ++ [(n % numFiles, m.lines)]) (n + 1) rest

/-- Models the sequential consumer side of `split`: counters start at
`vec![0; num_files]`, the running count starts at zero, and the records are
drained in channel order. -/
def splitRun (numFiles : Nat) (mols : List Mol2) :
    Option (List Nat × List (Nat × String)) :=
  splitLoop numFiles (List.replicate numFiles 0) [] 0 mols

@[simp] theorem Mol2.addLine_lines (m : Mol2) (l : String) :
    (m.addLine l).lines = m.lines ++ l := rfl

@[simp] theorem Mol2.addLine_name (m : Mol2) (l : String) :
    (m.addLine l).name = m.name := rfl

@[simp] theorem Mol2.addLine_energy (m : Mol2) (l : String) :
    (m.addLine l).energy = m.energy := rfl

@[simp] theorem concatLines_nil : concatLines [] = "" := rfl

@[simp] theorem concatLines_cons (a : String) (l : List String) :
    concatLines (a :: l) = a ++ concatLines l := rfl

theorem foldl_addLine_lines (ls : List String) :
    ∀ m : Mol2, (List.foldl Mol2.addLine m ls).lines = m.lines ++ concatLines ls := by
  induction ls with
  | nil => intro m; simp [String.append_empty]
  | cons a t ih =>
    intro m
    simp only [List.foldl_cons, ih, Mol2.addLine_lines, concatLines_cons,
      String.append_assoc]

theorem foldl_addLine_name (ls : List String) :
    ∀ m : Mol2, (List.foldl Mol2.addLine m ls).name = m.name := by
  induction ls with
  | nil => intro m; rfl
  | cons a t ih => intro m; simp only [List.foldl_cons, ih, Mol2.addLine_name]

theorem foldl_addLine_energy (ls : List String) :
    ∀ m : Mol2, (List.foldl Mol2.addLine m ls).energy = m.energy := by
  induction ls with
  | nil => intro m; rfl
  | cons a t ih => intro m; simp only [List.foldl_cons, ih, Mol2.addLine_energy]

/-- Every `cont` outcome of a loop-body iteration either leaves the section
index, counts vector and payload untouched with the read line as pending
buffer (the name, energy and plain branches), or clears the buffer after
appending a nonempty block of consumed source lines verbatim to the payload
(the two TRIPOS branches). -/
theorem processLine_spec {mol : Mol2} {s : Nat} {cv : List Nat} {line : String}
    {rest : List String} {mol' : Mol2} {s' : Nat} {cv' : List Nat} {buf : String}
    {rest' : List String}
    (h : processLine mol s cv line rest = StepOut.cont mol' s' cv' buf rest') :
    (s' = s ∧ cv' = cv ∧ buf = line ∧ rest' = rest ∧ mol'.lines = mol.lines) ∨
    (buf = "" ∧ ∃ pre, pre ≠ [] ∧ line :: rest = pre ++ rest' ∧
      mol'.lines = mol.lines ++ concatLines pre) := by
  cases hn : isNameLine line with
  | true =>
    simp only [processLine, hn, if_true] at h
    cases h; exact Or.inl ⟨rfl, rfl, rfl, rfl, rfl⟩
  | false =>
    cases he : isEnergyLine line with
    | true =>
      cases hp : parseF64 (extractAfter energyLit line) with
      | none => simp [processLine, hn, he, hp] at h
      | some e =>
        simp only [processLine, hn, he, hp, Bool.false_eq_true, if_false, if_true] at h
        cases h; exact Or.inl ⟨rfl, rfl, rfl, rfl, rfl⟩
    | false =>
      cases ht : isTriposLine line with
      | false =>
        simp only [processLine, hn, he, ht, Bool.false_eq_true, if_false] at h
        cases h; exact Or.inl ⟨rfl, rfl, rfl, rfl, rfl⟩
      | true =>
        cases htm : isTriposMoleculeLine line with
        | true =>
          match rest with
          | [] => simp [processLine, hn, he, ht, htm] at h
          | [l1] => simp [processLine, hn, he, ht, htm] at h
          | l1 :: l2 :: rest2 =>
            cases hc : parseCounts l2 with
            | none => simp [processLine, hn, he, ht, htm, hc] at h
            | some cs =>
              simp only [processLine, hn, he, ht, htm, hc, Bool.false_eq_true,
                if_false, if_true] at h
              cases h
              refine Or.inr ⟨rfl, [line, l1, l2], by simp, rfl, ?_⟩
              simp [String.append_assoc, String.append_empty]
        | false =>
          cases hg : cv[s]? with
          | none => simp [processLine, hn, he, ht, htm, hg] at h
          | some n =>
            by_cases hl : n ≤ rest.length
            · simp only [processLine, hn, he, ht, htm, hg, hl, Bool.false_eq_true,
                if_false, if_true] at h
              cases h
              refine Or.inr ⟨rfl, line :: rest.take n, by simp, ?_, ?_⟩
              · exact congrArg (line :: ·) (List.take_append_drop n rest).symm
              · simp [foldl_addLine_lines, String.append_assoc]
            · simp [processLine, hn, he, ht, htm, hg, hl] at h

/-- A `cont` outcome never lengthens the remaining input. -/
theorem processLine_rest_length {mol : Mol2} {s : Nat} {cv : List Nat}
    {line : String} {rest : List String} {mol' : Mol2} {s' : Nat} {cv' : List Nat}
    {buf : String} {rest' : List String}
    (h : processLine mol s cv line rest = StepOut.cont mol' s' cv' buf rest') :
    rest'.length ≤ rest.length := by
  rcases processLine_spec h with ⟨_, _, _, hr, _⟩ | ⟨_, pre, hne, hsplit, _⟩
  · exact hr ▸ Nat.le_refl _
  · have hlen := congrArg List.length hsplit
    simp only [List.length_cons, List.length_append] at hlen
    cases pre with
    | nil => exact absurd rfl hne
    | cons p ps => simp only [List.length_cons] at hlen; omega

/-- An early `return` out of the loop body is end-of-stream or a panic,
never a yielded record. -/
theorem processLine_ret {mol : Mol2} {s : Nat} {cv : List Nat} {line : String}
    {rest : List String} {r : ParseResult}
    (h : processLine mol s cv line rest = StepOut.ret r) :
    r = ParseResult.eof ∨ r = ParseResult.panicked := by
  cases hn : isNameLine line with
  | true => simp [processLine, hn] at h
  | false =>
    cases he : isEnergyLine line with
    | true =>
      cases hp : parseF64 (extractAfter energyLit line) with
      | none => simp [processLine, hn, he, hp] at h; exact Or.inr h.symm
      | some e => simp [processLine, hn, he, hp] at h
    | false =>
      cases ht : isTriposLine line with
      | false => simp [processLine, hn, he, ht] at h
      | true =>
        cases htm : isTriposMoleculeLine line with
        | true =>
          match rest with
          | [] =>
            simp [processLine, hn, he, ht, htm] at h; exact Or.inl h.symm
          | [l1] =>
            simp [processLine, hn, he, ht, htm] at h; exact Or.inl h.symm
          | l1 :: l2 :: rest2 =>
            cases hc : parseCounts l2 with
            | none =>
              simp [processLine, hn, he, ht, htm, hc] at h; exact Or.inr h.symm
            | some cs => simp [processLine, hn, he, ht, htm, hc] at h
        | false =>
          cases hg : cv[s]? with
          | none =>
            simp [processLine, hn, he, ht, htm, hg] at h; exact Or.inr h.symm
          | some n =>
            by_cases hl : n ≤ rest.length
            · simp [processLine, hn, he, ht, htm, hg, hl] at h
            · simp [processLine, hn, he, ht, htm, hg, hl] at h
              exact Or.inl h.symm

/-- When the read line does not match the name-header regex, the loop body
leaves the record's name unchanged. -/
theorem processLine_name {mol : Mol2} {s : Nat} {cv : List Nat} {line : String}
    {rest : List String} {mol' : Mol2} {s' : Nat} {cv' : List Nat} {buf : String}
    {rest' : List String} (hn : isNameLine line = false)
    (h : processLine mol s cv line rest = StepOut.cont mol' s' cv' buf rest') :
    mol'.name = mol.name := by
  cases he : isEnergyLine line with
  | true =>
    cases hp : parseF64 (extractAfter energyLit line) with
    | none => simp [processLine, hn, he, hp] at h
    | some e =>
      simp only [processLine, hn, he, hp, Bool.false_eq_true, if_false, if_true] at h
      cases h; rfl
  | false =>
    cases ht : isTriposLine line with
    | false =>
      simp only [processLine, hn, he, ht, Bool.false_eq_true, if_false] at h
      cases h; rfl
    | true =>
      cases htm : isTriposMoleculeLine line with
      | true =>
        match rest with
        | [] => simp [processLine, hn, he, ht, htm] at h
        | [l1] => simp [processLine, hn, he, ht, htm] at h
        | l1 :: l2 :: rest2 =>
          cases hc : parseCounts l2 with
          | none => simp [processLine, hn, he, ht, htm, hc] at h
          | some cs =>
            simp only [processLine, hn, he, ht, htm, hc, Bool.false_eq_true,
              if_false, if_true] at h
            cases h; rfl
      | false =>
        cases hg : cv[s]? with
        | none => simp [processLine, hn, he, ht, htm, hg] at h
        | some n =>
          by_cases hl : n ≤ rest.length
          · simp only [processLine, hn, he, ht, htm, hg, hl, Bool.false_eq_true,
              if_false, if_true] at h
            cases h; simp [foldl_addLine_name]
          · simp [processLine, hn, he, ht, htm, hg, hl] at h

/-- When the read line does not match the energy-header regex, the loop body
leaves the record's energy unchanged. -/
theorem processLine_energy {mol : Mol2} {s : Nat} {cv : List Nat} {line : String}
    {rest : List String} {mol' : Mol2} {s' : Nat} {cv' : List Nat} {buf : String}
    {rest' : List String} (he : isEnergyLine line = false)
    (h : processLine mol s cv line rest = StepOut.cont mol' s' cv' buf rest') :
    mol'.energy = mol.energy := by
  cases hn : isNameLine line with
  | true =>
    simp only [processLine, hn, if_true] at h
    cases h; rfl
  | false =>
    cases ht : isTriposLine line with
    | false =>
      simp only [processLine, hn, he, ht, Bool.false_eq_true, if_false] at h
      cases h; rfl
    | true =>
      cases htm : isTriposMoleculeLine line with
      | true =>
        match rest with
        | [] => simp [processLine, hn, he, ht, htm] at h
        | [l1] => simp [processLine, hn, he, ht, htm] at h
        | l1 :: l2 :: rest2 =>
          cases hc : parseCounts l2 with
          | none => simp [processLine, hn, he, ht, htm, hc] at h
          | some cs =>
            simp only [processLine, hn, he, ht, htm, hc, Bool.false_eq_true,
              if_false, if_true] at h
            cases h; rfl
      | false =>
        cases hg : cv[s]? with
        | none => simp [processLine, hn, he, ht, htm, hg] at h
        | some n =>
          by_cases hl : n ≤ rest.length
          · simp only [processLine, hn, he, ht, htm, hg, hl, Bool.false_eq_true,
              if_false, if_true] at h
            cases h; simp [foldl_addLine_energy]
          · simp [processLine, hn, he, ht, htm, hg, hl] at h

/-- A yielded record leaves a strictly shorter remaining stream: every call
of the loop that returns `ok` consumed at least one line. -/
theorem getMol2Loop_ok_length : ∀ (fuel : Nat) (mol : Mol2) (s : Nat)
    (cv : List Nat) (lines : List String) (m : Mol2) (r : List String),
    lines.length ≤ fuel →
    getMol2Loop fuel mol s cv lines = ParseResult.ok m r →
    r.length < lines.length := by
  intro fuel
  induction fuel with
  | zero =>
    intro mol s cv lines m r hle hrun
    cases lines with
    | nil => simp [getMol2Loop] at hrun
    | cons a t => simp at hle
  | succ f ih =>
    intro mol s cv lines m r hle hrun
    cases lines with
    | nil => simp [getMol2Loop] at hrun
    | cons line rest =>
      cases hps : processLine mol s cv line rest with
      | ret r2 =>
        simp only [getMol2Loop, hps] at hrun
        rcases processLine_ret hps with h | h <;> (subst h; cases hrun)
      | cont mol' s' cv' buf rest' =>
        simp only [getMol2Loop, hps] at hrun
        have hlen := processLine_rest_length hps
        simp only [List.length_cons] at hle ⊢
        split at hrun
        · cases hg : cv'[s']? with
          | none => simp only [hg] at hrun; cases hrun
          | some k =>
            simp only [hg] at hrun
            by_cases hk : k = 0
            · rw [if_pos hk] at hrun
              cases hrun
              omega
            · rw [if_neg hk] at hrun
              have := ih _ _ _ _ _ _ (by omega) hrun
              omega
        · have := ih _ _ _ _ _ _ (by omega) hrun
          omega

theorem concatLines_append (l1 l2 : List String) :
    concatLines (l1 ++ l2) = concatLines l1 ++ concatLines l2 := by
  induction l1 with
  | nil => simp [String.empty_append]
  | cons a t ih => simp [ih, String.append_assoc]

/-- Payload accounting for the parser loop: from any state whose loop-bottom
yield condition does not already hold, a yielded record's payload extends the
in-progress payload by exactly the concatenation of the consumed lines, in
consumption order. -/
theorem getMol2Loop_payload : ∀ (fuel : Nat) (mol : Mol2) (s : Nat)
    (cv : List Nat) (lines : List String) (m : Mol2) (r : List String),
    lines.length ≤ fuel →
    ¬(0 < s ∧ cv[s]? = some 0) →
    getMol2Loop fuel mol s cv lines = ParseResult.ok m r →
    ∃ pre, lines = pre ++ r ∧ m.lines = mol.lines ++ concatLines pre := by
  intro fuel
  induction fuel with
  | zero =>
    intro mol s cv lines m r hle hinv hrun
    cases lines with
    | nil => simp [getMol2Loop] at hrun
    | cons a t => simp at hle
  | succ f ih =>
    intro mol s cv lines m r hle hinv hrun
    cases lines with
    | nil => simp [getMol2Loop] at hrun
    | cons line rest =>
      cases hps : processLine mol s cv line rest with
      | ret r2 =>
        simp only [getMol2Loop, hps] at hrun
        rcases processLine_ret hps with h | h <;> (subst h; cases hrun)
      | cont mol' s' cv' buf rest' =>
        simp only [getMol2Loop, hps] at hrun
        have hlen := processLine_rest_length hps
        simp only [List.length_cons] at hle
        split at hrun
        · rename_i hs
          cases hg : cv'[s']? with
          | none => simp only [hg] at hrun; cases hrun
          | some k =>
            simp only [hg] at hrun
            by_cases hk : k = 0
            · rw [if_pos hk] at hrun
              cases hrun
              rcases processLine_spec hps with ⟨h1, h2, _, _, _⟩ | ⟨_, pre, _, hsplit, hpl⟩
              · exact absurd ⟨h1 ▸ hs, by rw [← h1, ← h2]; rw [hk] at hg; exact hg⟩ hinv
              · exact ⟨pre, hsplit, hpl⟩
            · rw [if_neg hk] at hrun
              have hinv' : ¬(0 < s' ∧ cv'[s']? = some 0) := by
                rintro ⟨_, hzz⟩
                rw [hg] at hzz
                exact hk (Option.some.injEq _ _ ▸ hzz)
              rcases ih _ _ _ _ _ _ (by omega) hinv' hrun with ⟨pre2, hsp2, hpl2⟩
              rcases processLine_spec hps with ⟨_, _, hbuf, hr, hml⟩ | ⟨hbuf, pre1, _, hsp1, hpl1⟩
              · refine ⟨line :: pre2, ?_, ?_⟩
                · rw [← hr, hsp2]; simp
                · rw [hpl2, hbuf, Mol2.addLine_lines, hml, concatLines_cons,
                    String.append_assoc]
              · refine ⟨pre1 ++ pre2, ?_, ?_⟩
                · rw [List.append_assoc, ← hsp2, hsp1]
                · rw [hpl2, hbuf, Mol2.addLine_lines, String.append_empty, hpl1,
                    concatLines_append, String.append_assoc]
        · rename_i hs
          have hinv' : ¬(0 < s' ∧ cv'[s']? = some 0) := fun hc => hs hc.1
          rcases ih _ _ _ _ _ _ (by omega) hinv' hrun with ⟨pre2, hsp2, hpl2⟩
          rcases processLine_spec hps with ⟨_, _, hbuf, hr, hml⟩ | ⟨hbuf, pre1, _, hsp1, hpl1⟩
          · refine ⟨line :: pre2, ?_, ?_⟩
            · rw [← hr, hsp2]; simp
            · rw [hpl2, hbuf, Mol2.addLine_lines, hml, concatLines_cons,
                String.append_assoc]
          · refine ⟨pre1 ++ pre2, ?_, ?_⟩
            · rw [List.append_assoc, ← hsp2, hsp1]
            · rw [hpl2, hbuf, Mol2.addLine_lines, String.append_empty, hpl1,
                concatLines_append, String.append_assoc]

/-- If no remaining line matches the name-header regex, a yielded record keeps
the in-progress record's name. -/
theorem getMol2Loop_name : ∀ (fuel : Nat) (mol : Mol2) (s : Nat) (cv : List Nat)
    (lines : List String) (m : Mol2) (r : List String),
    lines.length ≤ fuel →
    (∀ l ∈ lines, isNameLine l = false) →
    getMol2Loop fuel mol s cv lines = ParseResult.ok m r →
    m.name = mol.name := by
  intro fuel
  induction fuel with
  | zero =>
    intro mol s cv lines m r hle hall hrun
    cases lines with
    | nil => simp [getMol2Loop] at hrun
    | cons a t => simp at hle
  | succ f ih =>
    intro mol s cv lines m r hle hall hrun
    cases lines with
    | nil => simp [getMol2Loop] at hrun
    | cons line rest =>
      cases hps : processLine mol s cv line rest with
      | ret r2 =>
        simp only [getMol2Loop, hps] at hrun
        rcases processLine_ret hps with h | h <;> (subst h; cases hrun)
      | cont mol' s' cv' buf rest' =>
        simp only [getMol2Loop, hps] at hrun
        have hlen := processLine_rest_length hps
        simp only [List.length_cons] at hle
        have hnm : mol'.name = mol.name :=
          processLine_name (hall line (List.mem_cons_self line rest)) hps
        have hmem : ∀ l ∈ rest', isNameLine l = false := by
          intro l hl
          apply hall
          rcases processLine_spec hps with ⟨_, _, _, hr, _⟩ | ⟨_, pre, _, hsp, _⟩
          · exact List.mem_cons_of_mem _ (hr ▸ hl)
          · rw [hsp]; exact List.mem_append_right pre hl
        split at hrun
        · cases hg : cv'[s']? with
          | none => simp only [hg] at hrun; cases hrun
          | some k =>
            simp only [hg] at hrun
            by_cases hk : k = 0
            · rw [if_pos hk] at hrun; cases hrun; exact hnm
            · rw [if_neg hk] at hrun
              rw [ih _ _ _ _ _ _ (by omega) hmem hrun]
              simp [hnm]
        · rw [ih _ _ _ _ _ _ (by omega) hmem hrun]
          simp [hnm]

/-- If no remaining line matches the energy-header regex, a yielded record
keeps the in-progress record's energy. -/
theorem getMol2Loop_energy : ∀ (fuel : Nat) (mol : Mol2) (s : Nat) (cv : List Nat)
    (lines : List String) (m : Mol2) (r : List String),
    lines.length ≤ fuel →
    (∀ l ∈ lines, isEnergyLine l = false) →
    getMol2Loop fuel mol s cv lines = ParseResult.ok m r →
    m.energy = mol.energy := by
  intro fuel
  induction fuel with
  | zero =>
    intro mol s cv lines m r hle hall hrun
    cases lines with
    | nil => simp [getMol2Loop] at hrun
    | cons a t => simp at hle
  | succ f ih =>
    intro mol s cv lines m r hle hall hrun
    cases lines with
    | nil => simp [getMol2Loop] at hrun
    | cons line rest =>
      cases hps : processLine mol s cv line rest with
      | ret r2 =>
        simp only [getMol2Loop, hps] at hrun
        rcases processLine_ret hps with h | h <;> (subst h; cases hrun)
      | cont mol' s' cv' buf rest' =>
        simp only [getMol2Loop, hps] at hrun
        have hlen := processLine_rest_length hps
        simp only [List.length_cons] at hle
        have hnm : mol'.energy = mol.energy :=
          processLine_energy (hall line (List.mem_cons_self line rest)) hps
        have hmem : ∀ l ∈ rest', isEnergyLine l = false := by
          intro l hl
          apply hall
          rcases processLine_spec hps with ⟨_, _, _, hr, _⟩ | ⟨_, pre, _, hsp, _⟩
          · exact List.mem_cons_of_mem _ (hr ▸ hl)
          · rw [hsp]; exact List.mem_append_right pre hl
        split at hrun
        · cases hg : cv'[s']? with
          | none => simp only [hg] at hrun; cases hrun
          | some k =>
            simp only [hg] at hrun
            by_cases hk : k = 0
            · rw [if_pos hk] at hrun; cases hrun; exact hnm
            · rw [if_neg hk] at hrun
              rw [ih _ _ _ _ _ _ (by omega) hmem hrun]
              simp [hnm]
        · rw [ih _ _ _ _ _ _ (by omega) hmem hrun]
          simp [hnm]

theorem sum_set_succ : ∀ (l : List Nat) (i k : Nat), l[i]? = some k →
    (l.set i (k + 1)).sum = l.sum + 1 := by
  intro l
  induction l with
  | nil => intro i k h; simp at h
  | cons a t ih =>
    intro i k h
    cases i with
    | zero =>
      simp only [List.getElem?_cons_zero, Option.some.injEq] at h
      subst h
      simp [List.set]
      omega
    | succ j =>
      simp only [List.getElem?_cons_succ] at h
      simp [List.set, ih j k h]
      omega

theorem shardWrites_length (numFiles : Nat) : ∀ (n : Nat) (mols : List Mol2),
    (shardWrites numFiles n mols).length = mols.length := by
  intro n mols
  induction mols generalizing n with
  | nil => rfl
  | cons m rest ih => simp [shardWrites, ih]

theorem shardWrites_get (numFiles : Nat) : ∀ (mols : List Mol2) (n k : Nat),
    (shardWrites numFiles n mols)[k]? =
      (mols[k]?).map (fun m => ((n + k) % numFiles, m.lines)) := by
  intro mols
  induction mols with
  | nil => intro n k; simp [shardWrites]
  | cons m rest ih =>
    intro n k
    cases k with
    | zero => simp [shardWrites]
    | succ j =>
      simp only [shardWrites, List.getElem?_cons_succ, ih (n + 1) j]
      have : n + 1 + j = n + (j + 1) := by omega
      rw [this]

/-- The drain loop of `split` never fails for a positive shard count: every
counter access is in bounds, the counter vector keeps its length, its sum
grows by one per drained record, and the writes extend by the round-robin
shard assignment. -/
theorem splitLoop_spec (numFiles : Nat) (hpos : 0 < numFiles) :
    ∀ (mols : List Mol2) (counts : List Nat) (ws : List (Nat × String)) (n : Nat),
    counts.length = numFiles →
    ∃ counts', splitLoop numFiles counts ws n mols =
        some (counts', ws ++ shardWrites numFiles n mols) ∧
      counts'.length = numFiles ∧ counts'.sum = counts.sum + mols.length := by
  intro mols
  induction mols with
  | nil =>
    intro counts ws n hlen
    exact ⟨counts, by simp [splitLoop, shardWrites], hlen, by simp⟩
  | cons m rest ih =>
    intro counts ws n hlen
    have hne : numFiles ≠ 0 := Nat.pos_iff_ne_zero.mp hpos
    have hidx : n % numFiles < counts.length := by
      rw [hlen]; exact Nat.mod_lt n hpos
    have hg : counts[n % numFiles]? = some counts[n % numFiles] :=
      List.getElem?_eq_getElem hidx
    rcases ih (counts.set (n % numFiles) (counts[n % numFiles] + 1))
        (ws ++ [(n % numFiles, m.lines)]) (n + 1)
        (by simp [hlen]) with ⟨counts', hrun, hlen', hsum⟩
    refine ⟨counts', ?_, hlen', ?_⟩
    · simp only [splitLoop, hne, if_false, hg, hrun, shardWrites]
      rw [List.append_assoc]
      rfl
    · rw [hsum, sum_set_succ counts _ _ hg]
      simp
      omega

/-- C1: the map-based matching predicate of `grep_with_map` accepts a record
iff its name is a key of the query map and its energy is at most the target
energy plus the tolerance; the bound is one-sided, so arbitrarily low energies
pass, energy exactly `target + tol` passes, and anything strictly above is
rejected; names absent from the map are always rejected. -/
theorem claim_C1 (table : List (String × ℚ)) (tol : ℚ) (m : Mol2) :
    (∀ target, table.lookup m.name = some target →
      (matchesMap table tol m = true ↔ m.energy ≤ target + tol)) ∧
    (table.lookup m.name = none → matchesMap table tol m = false) := by
  constructor
  · intro target hl
    simp only [matchesMap, hl, decide_eq_true_eq]
    constructor <;> intro h <;> linarith
  · intro hl
    simp [matchesMap, hl]

theorem claim_C1_witness :
    ([("a", (5 : ℚ))].lookup "a" = some 5 ∧
      matchesMap [("a", 5)] 2 { name := "a", energy := 7, lines := "" } = true) ∧
    matchesMap [("a", 5)] 2 { name := "a", energy := -1000, lines := "" } = true ∧
    matchesMap [("a", 5)] 2 { name := "a", energy := 8, lines := "" } = false ∧
    ([("a", (5 : ℚ))].lookup "b" = none ∧
      matchesMap [("a", 5)] 2 { name := "b", energy := 0, lines := "" } = false) := by
  refine ⟨⟨by decide, ?_⟩, ?_, ?_, by decide,
    (claim_C1 [("a", 5)] 2 { name := "b", energy := 0, lines := "" }).2 (by decide)⟩
  · exact ((claim_C1 [("a", 5)] 2 { name := "a", energy := 7, lines := "" }).1 5
      (by decide)).mpr (by norm_num)
  · exact ((claim_C1 [("a", 5)] 2 { name := "a", energy := -1000, lines := "" }).1 5
      (by decide)).mpr (by norm_num)
  · have h := (claim_C1 [("a", 5)] 2 { name := "a", energy := 8, lines := "" }).1 5
      (by decide)
    refine Bool.eq_false_iff.mpr (fun hc => ?_)
    have := h.mp hc
    norm_num at this

/-- C6: two records are equal under the `PartialEq` model iff their names are
equal, equal names force identical hashes for every hasher, and the energy
and payload fields have no effect on equality. -/
theorem claim_C6 (a b : Mol2) :
    (mol2BEq a b = true ↔ a.name = b.name) ∧
    (a.name = b.name → ∀ hs : String → Nat, mol2Hash hs a = mol2Hash hs b) ∧
    (∀ (e : ℚ) (l : String) (e' : ℚ) (l' : String),
      mol2BEq { a with energy := e, lines := l } { b with energy := e', lines := l' } =
        mol2BEq a b) ∧
    (∀ (hs : String → Nat) (e : ℚ) (l : String),
      mol2Hash hs { a with energy := e, lines := l } = mol2Hash hs a) := by
  refine ⟨?_, ?_, ?_, ?_⟩
  · simp [mol2BEq]
  · intro h hs
    simp [mol2Hash, h]
  · intro e l e' l'
    simp [mol2BEq]
  · intro hs e l
    simp [mol2Hash]

theorem claim_C6_witness :
    mol2BEq { name := "x", energy := 1, lines := "p" }
        { name := "x", energy := 2, lines := "q" } = true ∧
    mol2Hash String.length { name := "x", energy := 1, lines := "p" } =
      mol2Hash String.length { name := "x", energy := 2, lines := "q" } :=
  ⟨(claim_C6 { name := "x", energy := 1, lines := "p" }
      { name := "x", energy := 2, lines := "q" }).1.mpr rfl,
    (claim_C6 { name := "x", energy := 1, lines := "p" }
      { name := "x", energy := 2, lines := "q" }).2.1 rfl String.length⟩

/-- C2: after processing a line, the parser loop completes and yields the
in-progress record exactly when the updated section index is positive and the
updated counts vector has entry zero at that index; under any other condition
the loop does not return that record (it panics or keeps consuming, and
anything yielded later has consumed strictly more input). -/
theorem claim_C2 (fuel : Nat) (mol mol' : Mol2) (s s' : Nat) (cv cv' : List Nat)
    (line buf : String) (rest rest' : List String)
    (hfuel : (line :: rest).length ≤ fuel)
    (hps : processLine mol s cv line rest = StepOut.cont mol' s' cv' buf rest') :
    getMol2Loop fuel mol s cv (line :: rest) = ParseResult.ok mol' rest' ↔
      (0 < s' ∧ cv'[s']? = some 0) := by
  cases fuel with
  | zero => simp at hfuel
  | succ f =>
    simp only [List.length_cons] at hfuel
    have hlen := processLine_rest_length hps
    constructor
    · intro hrun
      simp only [getMol2Loop, hps] at hrun
      split at hrun
      · rename_i hs
        cases hg : cv'[s']? with
        | none => simp only [hg] at hrun; cases hrun
        | some k =>
          simp only [hg] at hrun
          by_cases hk : k = 0
          · exact ⟨hs, by rw [hk]⟩
          · rw [if_neg hk] at hrun
            have := getMol2Loop_ok_length f _ _ _ _ _ _ (by omega) hrun
            omega
      · have := getMol2Loop_ok_length f _ _ _ _ _ _ (by omega) hrun
        omega
    · rintro ⟨hs, hz⟩
      simp [getMol2Loop, hps, if_pos hs, hz]

theorem claim_C2_witness :
    processLine Mol2.new 0 [0, 0] "@<TRIPOS>ATOM\n" [] =
      StepOut.cont (Mol2.new.addLine "@<TRIPOS>ATOM\n") 1 [0, 0] "" [] ∧
    (0 < 1 ∧ [0, 0][1]? = some 0) ∧
    getMol2Loop 1 Mol2.new 0 [0, 0] ["@<TRIPOS>ATOM\n"] =
      ParseResult.ok (Mol2.new.addLine "@<TRIPOS>ATOM\n") [] :=
  ⟨by decide, ⟨by decide, by decide⟩,
    (claim_C2 1 Mol2.new (Mol2.new.addLine "@<TRIPOS>ATOM\n") 0 1 [0, 0] [0, 0]
      "@<TRIPOS>ATOM\n" "" [] [] (by decide) (by decide)).mpr ⟨by decide, by decide⟩⟩

/-- C3: every record yielded by the parser (hence every record the Filter
operation accepts and writes) carries as its emitted byte sequence exactly the
concatenation, in consumption order, of the source lines consumed for it. -/
theorem claim_C3 (lines : List String) (m : Mol2) (rest : List String)
    (h : getMol2 lines = ParseResult.ok m rest) :
    ∃ consumed, lines = consumed ++ rest ∧
      filterWriteBytes m = concatLines consumed := by
  have hinv : ¬(0 < 0 ∧ ([] : List Nat)[0]? = some 0) := by simp
  rcases getMol2Loop_payload lines.length Mol2.new 0 [] lines m rest
      (Nat.le_refl _) hinv h with ⟨pre, h1, h2⟩
  refine ⟨pre, h1, ?_⟩
  rw [filterWriteBytes, h2]
  simp [Mol2.new, String.empty_append]

theorem claim_C3_witness :
    getMol2 ["@<TRIPOS>MOLECULE\n", "x\n", "0 0\n", "@<TRIPOS>ATOM\n"] =
      ParseResult.ok
        { name := "", energy := 100,
          lines := "@<TRIPOS>MOLECULE\nx\n0 0\n@<TRIPOS>ATOM\n" } [] ∧
    (∃ consumed,
      ["@<TRIPOS>MOLECULE\n", "x\n", "0 0\n", "@<TRIPOS>ATOM\n"] = consumed ++ [] ∧
      filterWriteBytes
        { name := "", energy := 100,
          lines := "@<TRIPOS>MOLECULE\nx\n0 0\n@<TRIPOS>ATOM\n" } =
        concatLines consumed) :=
  ⟨by decide, claim_C3 _ _ _ (by decide)⟩

/-- C4: a stream that runs out mid-record produces no record: exhaustion at
the top of the loop, inside the two-line MOLECULE-header prefetch, or inside a
declared section's block of lines all return `eof` (the partial record is
discarded; this is exhaustion, not a panic and not a yielded record). -/
theorem claim_C4 (fuel : Nat) (mol : Mol2) (s : Nat) (cv : List Nat) :
    getMol2Loop fuel mol s cv [] = ParseResult.eof ∧
    (∀ line rest, (line :: rest).length ≤ fuel → isNameLine line = false →
      isEnergyLine line = false → isTriposLine line = true →
      isTriposMoleculeLine line = true → rest.length < 2 →
      getMol2Loop fuel mol s cv (line :: rest) = ParseResult.eof) ∧
    (∀ line rest n, (line :: rest).length ≤ fuel → isNameLine line = false →
      isEnergyLine line = false → isTriposLine line = true →
      isTriposMoleculeLine line = false → cv[s]? = some n → rest.length < n →
      getMol2Loop fuel mol s cv (line :: rest) = ParseResult.eof) := by
  refine ⟨?_, ?_, ?_⟩
  · cases fuel <;> rfl
  · intro line rest hf hn he ht htm hr2
    cases fuel with
    | zero => simp at hf
    | succ f =>
      have hps : processLine mol s cv line rest = StepOut.ret ParseResult.eof := by
        cases rest with
        | nil => simp [processLine, hn, he, ht, htm]
        | cons l1 t =>
          cases t with
          | nil => simp [processLine, hn, he, ht, htm]
          | cons l2 t2 => simp only [List.length_cons] at hr2; omega
      simp [getMol2Loop, hps]
  · intro line rest n hf hn he ht htm hg hr2
    cases fuel with
    | zero => simp at hf
    | succ f =>
      have hl : ¬(n ≤ rest.length) := Nat.not_le.mpr hr2
      have hps : processLine mol s cv line rest = StepOut.ret ParseResult.eof := by
        simp [processLine, hn, he, ht, htm, hg, hl]
      simp [getMol2Loop, hps]

theorem claim_C4_witness :
    (isNameLine "@<TRIPOS>MOLECULE\n" = false ∧
      isEnergyLine "@<TRIPOS>MOLECULE\n" = false ∧
      isTriposLine "@<TRIPOS>MOLECULE\n" = true ∧
      isTriposMoleculeLine "@<TRIPOS>MOLECULE\n" = true ∧
      getMol2Loop 1 Mol2.new 0 [] ["@<TRIPOS>MOLECULE\n"] = ParseResult.eof) ∧
    (isTriposMoleculeLine "@<TRIPOS>ATOM\n" = false ∧
      ([3] : List Nat)[0]? = some 3 ∧
      getMol2Loop 1 Mol2.new 0 [3] ["@<TRIPOS>ATOM\n"] = ParseResult.eof) :=
  ⟨⟨by decide, by decide, by decide, by decide,
      (claim_C4 1 Mol2.new 0 []).2.1 "@<TRIPOS>MOLECULE\n" [] (by decide) (by decide)
        (by decide) (by decide) (by decide) (by decide)⟩,
    ⟨by decide, by decide,
      (claim_C4 1 Mol2.new 0 [3]).2.2 "@<TRIPOS>ATOM\n" [] 3 (by decide) (by decide)
        (by decide) (by decide) (by decide) (by decide) (by decide)⟩⟩

/-- C8: a freshly constructed record has the empty name and sentinel energy
100, and a parsed record whose source lines contain no name header keeps the
empty name, no energy header keeps energy 100 — such input still yields a
record rather than failing. -/
theorem claim_C8 :
    Mol2.new.name = "" ∧ Mol2.new.energy = 100 ∧
    (∀ (lines : List String) (m : Mol2) (rest : List String),
      (∀ l ∈ lines, isNameLine l = false) →
      getMol2 lines = ParseResult.ok m rest → m.name = "") ∧
    (∀ (lines : List String) (m : Mol2) (rest : List String),
      (∀ l ∈ lines, isEnergyLine l = false) →
      getMol2 lines = ParseResult.ok m rest → m.energy = 100) := by
  refine ⟨rfl, rfl, ?_, ?_⟩
  · intro lines m rest hall h
    exact getMol2Loop_name lines.length Mol2.new 0 [] lines m rest
      (Nat.le_refl _) hall h
  · intro lines m rest hall h
    exact getMol2Loop_energy lines.length Mol2.new 0 [] lines m rest
      (Nat.le_refl _) hall h

theorem claim_C8_witness :
    getMol2 ["## comment\n", "@<TRIPOS>MOLECULE\n", "mol\n", "0 0\n", "@<TRIPOS>ATOM\n"] =
      ParseResult.ok
        { name := "", energy := 100,
          lines := "## comment\n@<TRIPOS>MOLECULE\nmol\n0 0\n@<TRIPOS>ATOM\n" } [] ∧
    { name := "", energy := (100 : ℚ),
      lines := "## comment\n@<TRIPOS>MOLECULE\nmol\n0 0\n@<TRIPOS>ATOM\n" : Mol2 }.name = "" ∧
    { name := "", energy := (100 : ℚ),
      lines := "## comment\n@<TRIPOS>MOLECULE\nmol\n0 0\n@<TRIPOS>ATOM\n" : Mol2 }.energy = 100 :=
  ⟨by decide,
    claim_C8.2.2.1 ["## comment\n", "@<TRIPOS>MOLECULE\n", "mol\n", "0 0\n", "@<TRIPOS>ATOM\n"]
      _ [] (by decide) (by decide),
    claim_C8.2.2.2 ["## comment\n", "@<TRIPOS>MOLECULE\n", "mol\n", "0 0\n", "@<TRIPOS>ATOM\n"]
      _ [] (by decide) (by decide)⟩

/-- C9: the parser panics (out-of-bounds index into the counts vector) rather
than returning `None` whenever a non-MOLECULE section marker is processed
while the section index is at or past the end of the counts vector; in
particular a section marker before any MOLECULE marker panics, and a record
whose declared counts hold no zero entry after its actual sections panics. -/
theorem claim_C9 :
    (∀ (fuel : Nat) (mol : Mol2) (s : Nat) (cv : List Nat) (line : String)
      (rest : List String), (line :: rest).length ≤ fuel →
      isNameLine line = false → isEnergyLine line = false →
      isTriposLine line = true → isTriposMoleculeLine line = false →
      cv.length ≤ s →
      getMol2Loop fuel mol s cv (line :: rest) = ParseResult.panicked) ∧
    getMol2 ["@<TRIPOS>ATOM\n"] = ParseResult.panicked ∧
    getMol2 ["@<TRIPOS>MOLECULE\n", "m\n", "1\n", "@<TRIPOS>ATOM\n", "a\n"] =
      ParseResult.panicked := by
  refine ⟨?_, by decide, by decide⟩
  intro fuel mol s cv line rest hf hn he ht htm hs
  cases fuel with
  | zero => simp at hf
  | succ f =>
    have hg : cv[s]? = none := by
      rw [List.getElem?_eq_none_iff]
      exact hs
    have hps : processLine mol s cv line rest = StepOut.ret ParseResult.panicked := by
      simp [processLine, hn, he, ht, htm, hg]
    simp [getMol2Loop, hps]

theorem claim_C9_witness :
    (isNameLine "@<TRIPOS>BOND\n" = false ∧
      isEnergyLine "@<TRIPOS>BOND\n" = false ∧
      isTriposLine "@<TRIPOS>BOND\n" = true ∧
      isTriposMoleculeLine "@<TRIPOS>BOND\n" = false ∧
      ([] : List Nat).length ≤ 0) ∧
    getMol2Loop 1 Mol2.new 0 [] ["@<TRIPOS>BOND\n"] = ParseResult.panicked :=
  ⟨⟨by decide, by decide, by decide, by decide, by decide⟩,
    claim_C9.1 1 Mol2.new 0 [] "@<TRIPOS>BOND\n" [] (by decide) (by decide)
      (by decide) (by decide) (by decide) (by decide)⟩

/-- C5 counterexample: a query file whose first line is blank and whose first
non-empty line has one column.  The claim predicts the set variant (shape from
the first non-empty line); `load_queries` reads only the very first line,
finds zero columns and panics, loading no table at all. -/
theorem claim_C5_counterexample :
    loadQueries ["\n", "abc\n"] = LoadResult.panicked ∧
    strTrim "\n" = "" ∧
    (splitItems "abc\n").length = 1 ∧
    loadQueries ["\n", "abc\n"] ≠
      LoadResult.ok (QueryFormat.withoutScore ["abc"]) := by
  refine ⟨by decide, by decide, by decide, ?_⟩
  intro h
  rw [show loadQueries ["\n", "abc\n"] = LoadResult.panicked from by decide] at h
  cases h

/-- C5 (amended): the loader selects the table shape once, from the column
count of the very first line of the query input, blank lines not skipped: one
column loads the set variant, two columns loads the map variant when every
line parses (otherwise the run aborts), and any other first-line column count
— including a blank or missing first line — is a fatal error aborting the
load. -/
theorem claim_C5 (first : String) (rest : List String) :
    ((splitItems first).length = 1 →
      loadQueries (first :: rest) =
        LoadResult.ok (QueryFormat.withoutScore (readZincList first rest))) ∧
    ((splitItems first).length = 2 →
      loadQueries (first :: rest) = LoadResult.panicked ∨
      ∃ t, loadQueries (first :: rest) = LoadResult.ok (QueryFormat.withScore t)) ∧
    ((splitItems first).length ≠ 1 → (splitItems first).length ≠ 2 →
      loadQueries (first :: rest) = LoadResult.panicked) ∧
    loadQueries [] = LoadResult.panicked := by
  refine ⟨?_, ?_, ?_, rfl⟩
  · intro h1
    simp [loadQueries, h1]
  · intro h2
    cases ht : readZincScoreTable first rest with
    | none => exact Or.inl (by simp [loadQueries, h2, ht])
    | some t => exact Or.inr ⟨t, by simp [loadQueries, h2, ht]⟩
  · intro h1 h2
    rcases hn : (splitItems first).length with _ | n2
    · simp [loadQueries, hn]
    · cases n2 with
      | zero => exact absurd hn h1
      | succ n3 =>
        cases n3 with
        | zero => exact absurd hn h2
        | succ n4 => simp [loadQueries, hn]

theorem claim_C5_witness :
    ((splitItems "abc\n").length = 1 ∧
      loadQueries ["abc\n", "def\n"] =
        LoadResult.ok (QueryFormat.withoutScore (readZincList "abc\n" ["def\n"]))) ∧
    ((splitItems "a 1.5\n").length = 2 ∧
      (loadQueries ["a 1.5\n"] = LoadResult.panicked ∨
        ∃ t, loadQueries ["a 1.5\n"] = LoadResult.ok (QueryFormat.withScore t))) ∧
    ((splitItems "a b c\n").length = 3 ∧
      loadQueries ["a b c\n"] = LoadResult.panicked) :=
  ⟨⟨by decide, (claim_C5 "abc\n" ["def\n"]).1 (by decide)⟩,
    ⟨by decide, (claim_C5 "a 1.5\n" []).2.1 (by decide)⟩,
    ⟨by decide, (claim_C5 "a b c\n" []).2.2.1 (by decide) (by decide)⟩⟩

/-- C7: for every Partition run with at least one output file, draining
succeeds, the per-shard count vector has length exactly `numFiles`, its sum
equals the number of records drained, and the `k`-th drained record is
written to shard `k % numFiles` with its verbatim payload. -/
theorem claim_C7 (numFiles : Nat) (mols : List Mol2) (hpos : 1 ≤ numFiles) :
    ∃ counts writes, splitRun numFiles mols = some (counts, writes) ∧
      counts.length = numFiles ∧
      counts.sum = mols.length ∧
      writes.length = mols.length ∧
      ∀ k m, mols[k]? = some m → writes[k]? = some (k % numFiles, m.lines) := by
  rcases splitLoop_spec numFiles hpos mols (List.replicate numFiles 0) [] 0
      (List.length_replicate _ _) with ⟨counts', hrun, hlen, hsum⟩
  refine ⟨counts', shardWrites numFiles 0 mols, ?_, hlen, ?_, ?_, ?_⟩
  · simpa [splitRun] using hrun
  · rw [hsum]
    simp
  · exact shardWrites_length numFiles 0 mols
  · intro k m hk
    rw [shardWrites_get numFiles mols 0 k, hk]
    simp

theorem claim_C7_witness :
    (1 ≤ 2) ∧
    ∃ counts writes,
      splitRun 2 [{ name := "a", energy := 0, lines := "pa" },
        { name := "b", energy := 0, lines := "pb" },
        { name := "c", energy := 0, lines := "pc" }] = some (counts, writes) ∧
      counts.length = 2 ∧ counts.sum = 3 ∧ writes.length = 3 ∧
      ∀ k m, (([{ name := "a", energy := (0 : ℚ), lines := "pa" },
        { name := "b", energy := 0, lines := "pb" },
        { name := "c", energy := 0, lines := "pc" }] : List Mol2)[k]?) = some m →
        writes[k]? = some (k % 2, m.lines) :=
  ⟨by decide, claim_C7 2 _ (by decide)⟩

/-- C10: with at least one output file the Partition drain never fails — the
shard index `n % numFiles` is always in bounds for the writer and counter
vectors — while `numFiles = 0` with at least one drained record panics on the
remainder-by-zero when the first record is drained. -/
theorem claim_C10 :
    (∀ (numFiles : Nat) (mols : List Mol2), 1 ≤ numFiles →
      ∃ r, splitRun numFiles mols = some r) ∧
    (∀ (m : Mol2) (rest : List Mol2), splitRun 0 (m :: rest) = none) := by
  constructor
  · intro numFiles mols hpos
    rcases splitLoop_spec numFiles hpos mols (List.replicate numFiles 0) [] 0
        (List.length_replicate _ _) with ⟨counts', hrun, _, _⟩
    exact ⟨(counts', shardWrites numFiles 0 mols), by simpa [splitRun] using hrun⟩
  · intro m rest
    rfl

theorem claim_C10_witness :
    (∃ r, splitRun 2 [Mol2.new] = some r) ∧
    splitRun 0 [Mol2.new] = none :=
  ⟨claim_C10.1 2 [Mol2.new] (by decide), claim_C10.2 Mol2.new []⟩
